import Mathlib

/-!
Verification of the BigUint gadget (src/src/gadgets/biguint.rs) and the
InsertionGate (src/src/gates/insertion.rs) against the natural-language
specification.  Circuit values are embedded at the value level: a
BigUintTarget is embedded as the list of natural numbers its 32-bit limb
wires hold (least significant first), and each builder operation is
embedded as the function from limb values to limb values that its emitted
constraints and generators define.  Fallible steps of the Rust code
(Vec indexing that can go out of bounds and so abort the program) are
embedded with Option: none means the operation aborts.
-/

namespace Plonky2

/-- Value denoted by a list of 32-bit limbs, least significant first:
the data model gives decoded(l) as the sum of limb i times 2 ^ (32 i). -/
def decodeBiguint : List Nat → Nat
  | [] => 0
  | x :: l => x + 2 ^ 32 * decodeBiguint l

/-- Rust Vec index-assignment v[i] = x: succeeds exactly when i is in
bounds, and an out-of-bounds store aborts the program (none). -/
def vecStore (l : List Nat) (i : Nat) (x : Nat) : Option (List Nat) :=
  if i < l.length then some (l.set i x) else none

/-- Modelled from the spec: the external 32-bit gate library operation
add-with-carry over two limbs plus incoming carry (spec section 6), used by
add_biguint as add_three_u32.  It returns the low 32 bits of the sum and
the carry. -/
def add_three_u32 (c x y : Nat) : Nat × Nat :=
  ((c + x + y) % 2 ^ 32, (c + x + y) / 2 ^ 32)

/-- Loop of add_biguint: for i in 0..a.len(), read a.limbs[i] and
b.limbs[i] (reading past the end of b aborts), feed them with the running
carry to add_three_u32, and push the low word.  Returns the pushed words
together with the final carry. -/
def addLimbs (c : Nat) : List Nat → List Nat → Option (List Nat × Nat)
  | [], _ => some ([], c)
  | _ :: _, [] => none
  | x :: xs, y :: ys =>
      (addLimbs (add_three_u32 c x y).2 xs ys).map
        (fun p => ((add_three_u32 c x y).1 :: p.1, p.2))

/-- Embedding of CircuitBuilder::add_biguint: ripple-carry addition of the
limb lists, after which the source stores the final carry with
combined_limbs[num_limbs] = carry, a Vec index-assignment at index
num_limbs (embedded with vecStore). -/
def add_biguint (a b : List Nat) : Option (List Nat) :=
  (addLimbs 0 a b).bind (fun p => vecStore p.1 a.length p.2)

theorem addLimbs_length (a : List Nat) :
    ∀ (b : List Nat) (c : Nat) (p : List Nat × Nat),
      addLimbs c a b = some p → p.1.length = a.length := by
  induction a with
  | nil =>
      intro b c p h
      cases b <;> simp [addLimbs] at h <;> simp [← h]
  | cons x xs ih =>
      intro b c p h
      cases b with
      | nil => simp [addLimbs] at h
      | cons y ys =>
          simp only [addLimbs, Option.map_eq_some'] at h
          obtain ⟨q, hq, hp⟩ := h
          have := ih ys (add_three_u32 c x y).2 q hq
          simp [← hp, List.length_cons, this]

theorem add_biguint_eq_none (a b : List Nat) : add_biguint a b = none := by
  unfold add_biguint
  cases h : addLimbs 0 a b with
  | none => rfl
  | some p =>
      have hl := addLimbs_length a b 0 p h
      simp [vecStore, hl]

/-- Modelled from the spec: the external 32-bit gate library operation
subtract-with-borrow (spec section 6), used by sub_biguint as sub_u32.
It returns the low 32 bits of x - y - borrow and the outgoing borrow. -/
def sub_u32 (x y borrow : Nat) : Nat × Nat :=
  ((x + 2 ^ 32 - y - borrow) % 2 ^ 32, if x < y + borrow then 1 else 0)

/-- Loop of sub_biguint: result_limbs starts as an empty Vec and the source
stores each round word with result_limbs[i] = result, a Vec
index-assignment (embedded with vecStore); the running borrow is threaded
through sub_u32.  The final borrow is only noted in a source comment and
never asserted by a constraint. -/
def subLimbs (resultLimbs : List Nat) (borrow i : Nat) :
    List Nat → List Nat → Option (List Nat)
  | [], _ => some resultLimbs
  | _ :: _, [] => none
  | x :: xs, y :: ys =>
      (vecStore resultLimbs i (sub_u32 x y borrow).1).bind
        (fun rl => subLimbs rl (sub_u32 x y borrow).2 (i + 1) xs ys)

/-- Embedding of CircuitBuilder::sub_biguint: ripple-borrow subtraction
limb by limb, writing each result limb with result_limbs[i] = result. -/
def sub_biguint (a b : List Nat) : Option (List Nat) :=
  subLimbs [] 0 0 a b

/-- Modelled from the spec: external multiply-with-carry over two 32-bit
limbs (spec section 6), used by mul_biguint as mul_u32. -/
def mul_u32 (x y : Nat) : Nat × Nat :=
  (x * y % 2 ^ 32, x * y / 2 ^ 32)

/-- Modelled from the spec: external multi-operand add-with-carry over
32-bit limbs (spec section 6), used by mul_biguint as add_many_u32. -/
def add_many_u32 (l : List Nat) : Nat × Nat :=
  (l.sum % 2 ^ 32, l.sum / 2 ^ 32)

/-- Rust to_add[k].push(v): append v to the k-th bucket of the
contribution table.  Inside mul_biguint the index k = i + j or
i + j + 1 is always within the 2 * num_limbs buckets. -/
def pushAt (t : List (List Nat)) (k : Nat) (v : Nat) : List (List Nat) :=
  t.set k (t.getD k [] ++ [v])

/-- Body of the double loop of mul_biguint for the limb pair (i, j): read
a.limbs[i] and b.limbs[j] (reading past the end of b aborts), multiply
with mul_u32, and push the product into bucket i + j and the carry into
bucket i + j + 1. -/
def mulStep (a b : List Nat) (i : Nat) (t : List (List Nat)) (j : Nat) :
    Option (List (List Nat)) :=
  (a.get? i).bind fun ai =>
    (b.get? j).map fun bj =>
      pushAt (pushAt t (i + j) (mul_u32 ai bj).1) (i + j + 1) (mul_u32 ai bj).2

/-- The contribution table of mul_biguint: to_add starts as 2 * num_limbs
empty buckets and the double loop over i, j in 0..num_limbs fills it. -/
def mulToAdd (a b : List Nat) : Option (List (List Nat)) :=
  (List.range a.length).foldlM
    (fun t i => (List.range a.length).foldlM (mulStep a b i) t)
    (List.replicate (2 * a.length) [])

/-- The combining loop of mul_biguint: for each bucket, push the incoming
carry into it, sum it with add_many_u32 keeping the low word, and carry
the high word to the next bucket; after the loop the final carry is pushed
as one more limb. -/
def rippleCombine : List (List Nat) → Nat → List Nat
  | [], carry => [carry]
  | t :: ts, carry =>
      (add_many_u32 (t ++ [carry])).1 ::
        rippleCombine ts (add_many_u32 (t ++ [carry])).2

/-- Embedding of CircuitBuilder::mul_biguint: schoolbook multiplication of
the limb lists through the contribution table and the combining loop. -/
def mul_biguint (a b : List Nat) : Option (List Nat) :=
  (mulToAdd a b).map (fun t => rippleCombine t 0)

/-- Weighted value of the contribution table: each bucket counts with the
weight of its limb position, as the sum its later add_many_u32 call
computes. -/
def wsum (t : List (List Nat)) : Nat :=
  decodeBiguint (t.map List.sum)

theorem rippleCombine_length (ts : List (List Nat)) :
    ∀ c, (rippleCombine ts c).length = ts.length + 1 := by
  induction ts with
  | nil => intro c; rfl
  | cons t ts ih => intro c; simp [rippleCombine, ih]

theorem decode_rippleCombine (ts : List (List Nat)) :
    ∀ c, decodeBiguint (rippleCombine ts c) = c + wsum ts := by
  induction ts with
  | nil => intro c; simp [rippleCombine, decodeBiguint, wsum]
  | cons t ts ih =>
      intro c
      simp only [rippleCombine, decodeBiguint, ih, wsum, List.map_cons,
        add_many_u32, List.sum_append, List.sum_cons, List.sum_nil]
      omega

theorem pushAt_length (t : List (List Nat)) (k : Nat) (v : Nat) :
    (pushAt t k v).length = t.length := by
  simp [pushAt]

theorem wsum_pushAt (t : List (List Nat)) :
    ∀ (k : Nat) (v : Nat), k < t.length →
      wsum (pushAt t k v) = wsum t + v * (2 ^ 32) ^ k := by
  induction t with
  | nil => intro k v hk; simp at hk
  | cons l ls ih =>
      intro k v hk
      cases k with
      | zero =>
          simp [pushAt, wsum, decodeBiguint, List.sum_append]
          ring
      | succ k =>
          have hk : k < ls.length := by simpa using hk
          simp only [pushAt, List.set_cons_succ, List.getD_cons_succ, wsum,
            List.map_cons, decodeBiguint] at *
          rw [ih k v hk]
          ring

theorem get?_eq_getD_of_lt :
    ∀ (l : List Nat) (i : Nat), i < l.length → l.get? i = some (l.getD i 0) := by
  intro l
  induction l with
  | nil => intro i h; simp at h
  | cons x xs ih =>
      intro i h
      cases i with
      | zero => rfl
      | succ j => simpa using ih j (by simpa using h)

theorem foldlM_append_option {α β : Type} (f : β → α → Option β)
    (l₁ l₂ : List α) : ∀ b : β,
    (l₁ ++ l₂).foldlM f b = (l₁.foldlM f b).bind (fun x => l₂.foldlM f x) := by
  induction l₁ with
  | nil => intro b; simp
  | cons a l ih =>
      intro b
      simp only [List.cons_append, List.foldlM_cons]
      cases f b a <;> simp [ih]

theorem decode_take_succ (l : List Nat) :
    ∀ m, m < l.length →
      decodeBiguint (l.take (m + 1)) =
        decodeBiguint (l.take m) + l.getD m 0 * (2 ^ 32) ^ m := by
  induction l with
  | nil => intro m h; simp at h
  | cons x xs ih =>
      intro m h
      cases m with
      | zero => simp [decodeBiguint]
      | succ m =>
          have h : m < xs.length := by simpa using h
          simp only [List.take_succ_cons, decodeBiguint, List.getD_cons_succ,
            ih m h]
          ring

theorem decode_replicate_zero : ∀ k, decodeBiguint (List.replicate k 0) = 0 := by
  intro k
  induction k with
  | zero => rfl
  | succ k ih => simp [List.replicate_succ, decodeBiguint, ih]

theorem innerFold_spec (a b : List Nat) (hb : b.length = a.length)
    (i : Nat) (hi : i < a.length) :
    ∀ (m : Nat), m ≤ a.length → ∀ t : List (List Nat),
      t.length = 2 * a.length →
      ∃ u, (List.range m).foldlM (mulStep a b i) t = some u ∧
        u.length = 2 * a.length ∧
        wsum u = wsum t +
          a.getD i 0 * decodeBiguint (b.take m) * (2 ^ 32) ^ i := by
  intro m
  induction m with
  | zero =>
      intro _ t ht
      exact ⟨t, by simp, ht, by simp [decodeBiguint]⟩
  | succ m ih =>
      intro hm t ht
      obtain ⟨u, hu, hul, huw⟩ := ih (Nat.le_of_succ_le hm) t ht
      have hmb : m < b.length := by omega
      have hai : a.get? i = some (a.getD i 0) := get?_eq_getD_of_lt a i hi
      have hbm : b.get? m = some (b.getD m 0) := get?_eq_getD_of_lt b m hmb
      have hstep : mulStep a b i u m =
          some (pushAt (pushAt u (i + m) (mul_u32 (a.getD i 0) (b.getD m 0)).1)
            (i + m + 1) (mul_u32 (a.getD i 0) (b.getD m 0)).2) := by
        simp only [mulStep]
        rw [hai, hbm]
        rfl
      refine ⟨pushAt (pushAt u (i + m) (mul_u32 (a.getD i 0) (b.getD m 0)).1)
        (i + m + 1) (mul_u32 (a.getD i 0) (b.getD m 0)).2, ?_, ?_, ?_⟩
      · rw [List.range_succ, foldlM_append_option, hu]
        simp [hstep]
      · simp [pushAt_length, hul]
      · have h1 : i + m < u.length := by omega
        have h2 : i + m + 1 <
            (pushAt u (i + m) (mul_u32 (a.getD i 0) (b.getD m 0)).1).length := by
          rw [pushAt_length]; omega
        rw [wsum_pushAt _ _ _ h2, wsum_pushAt _ _ _ h1, huw,
          decode_take_succ b m hmb]
        have hdm : (mul_u32 (a.getD i 0) (b.getD m 0)).1 +
            2 ^ 32 * (mul_u32 (a.getD i 0) (b.getD m 0)).2 =
            a.getD i 0 * b.getD m 0 := Nat.mod_add_div _ _
        have key : (mul_u32 (a.getD i 0) (b.getD m 0)).1 * (2 ^ 32) ^ (i + m) +
            (mul_u32 (a.getD i 0) (b.getD m 0)).2 * (2 ^ 32) ^ (i + m + 1) =
            a.getD i 0 * b.getD m 0 * (2 ^ 32) ^ (i + m) := by
          rw [← hdm]; ring
        calc wsum t + a.getD i 0 * decodeBiguint (b.take m) * (2 ^ 32) ^ i +
              (mul_u32 (a.getD i 0) (b.getD m 0)).1 * (2 ^ 32) ^ (i + m) +
              (mul_u32 (a.getD i 0) (b.getD m 0)).2 * (2 ^ 32) ^ (i + m + 1)
            = wsum t + a.getD i 0 * decodeBiguint (b.take m) * (2 ^ 32) ^ i +
              a.getD i 0 * b.getD m 0 * (2 ^ 32) ^ (i + m) := by
              rw [add_assoc, key]
          _ = wsum t + a.getD i 0 *
              (decodeBiguint (b.take m) + b.getD m 0 * (2 ^ 32) ^ m) *
              (2 ^ 32) ^ i := by
              rw [pow_add]; ring

theorem mulToAdd_spec (a b : List Nat) (hb : b.length = a.length) :
    ∃ t, mulToAdd a b = some t ∧ t.length = 2 * a.length ∧
      wsum t = decodeBiguint a * decodeBiguint b := by
  suffices h : ∀ m, m ≤ a.length → ∃ t,
      (List.range m).foldlM
        (fun t i => (List.range a.length).foldlM (mulStep a b i) t)
        (List.replicate (2 * a.length) []) = some t ∧
      t.length = 2 * a.length ∧
      wsum t = decodeBiguint (a.take m) * decodeBiguint b by
    obtain ⟨t, h1, h2, h3⟩ := h a.length le_rfl
    exact ⟨t, h1, h2, by simpa [List.take_length] using h3⟩
  intro m
  induction m with
  | zero =>
      refine fun _ => ⟨List.replicate (2 * a.length) [], by simp, by simp, ?_⟩
      simp [wsum, List.map_replicate, decode_replicate_zero, decodeBiguint]
  | succ m ih =>
      intro hm
      obtain ⟨t, h1, h2, h3⟩ := ih (Nat.le_of_succ_le hm)
      have hi : m < a.length := hm
      obtain ⟨u, hu, hul, huw⟩ := innerFold_spec a b hb m hi a.length le_rfl t h2
      refine ⟨u, ?_, hul, ?_⟩
      · rw [List.range_succ, foldlM_append_option, h1]
        simp [hu]
      · have hbt : b.take a.length = b := by
          rw [← hb]; exact List.take_length b
        rw [huw, h3, decode_take_succ a m hi, hbt]
        ring

theorem mul_biguint_spec (a b : List Nat) (hb : a.length = b.length) :
    ∃ l, mul_biguint a b = some l ∧ l.length = 2 * a.length + 1 ∧
      decodeBiguint l = decodeBiguint a * decodeBiguint b := by
  obtain ⟨t, h1, h2, h3⟩ := mulToAdd_spec a b hb.symm
  refine ⟨rippleCombine t 0, by simp [mul_biguint, h1], ?_, ?_⟩
  · rw [rippleCombine_length, h2]
  · rw [decode_rippleCombine, h3, Nat.zero_add]

/-- Modelled from the spec: the witness store helper that writes a
multi-limb integer across limb targets, 32 bits per limb, least
significant first (set_biguint_target, spec section 6). -/
def natToLimbs : Nat → Nat → List Nat
  | _, 0 => []
  | x, n + 1 => x % 2 ^ 32 :: natToLimbs (x / 2 ^ 32) n

/-- Embedding of BigUintDivRemGenerator::run_once: read the values of a
and b from the witness, compute the native integer quotient and remainder,
and write them across the fresh div and rem targets, a.num_limbs() limbs
each. -/
def divRemGeneratorRun (a b : List Nat) : List Nat × List Nat :=
  (natToLimbs (decodeBiguint a / decodeBiguint b) a.length,
   natToLimbs (decodeBiguint a % decodeBiguint b) a.length)

/-- Embedding of CircuitBuilder::div_rem_biguint at the witness level: the
registered generator fills the fresh div and rem targets, then the circuit
computes mul_biguint(div, b) and add_biguint(div_b, rem); connect_biguint
with a and the comparison cmp_biguint(rem, b) would only add constraints
on the produced limbs and do not change the returned pair.  A none means
the construction aborts before returning. -/
def div_rem_biguint (a b : List Nat) : Option (List Nat × List Nat) :=
  (mul_biguint (divRemGeneratorRun a b).1 b).bind fun divB =>
    (add_biguint divB (divRemGeneratorRun a b).2).map fun _ =>
      divRemGeneratorRun a b

/-- Embedding of CircuitBuilder::connect_biguint: the list of Boolean
checks its emitted constraints impose on the limb values.  connect_u32
equates each overlapping pair of low limbs and assert_zero_u32 pins every
excess high limb of either operand to zero. -/
def connect_biguint (lhs rhs : List Nat) : List Bool :=
  ((lhs.zip rhs).map fun p => p.1 == p.2)
    ++ ((lhs.drop (min lhs.length rhs.length)).map fun x => x == 0)
    ++ ((rhs.drop (min lhs.length rhs.length)).map fun x => x == 0)

theorem decode_eq_zero_iff : ∀ l : List Nat,
    decodeBiguint l = 0 ↔ ∀ x ∈ l, x = 0 := by
  intro l
  induction l with
  | nil => simp [decodeBiguint]
  | cons x xs ih =>
      simp only [decodeBiguint, List.mem_cons]
      constructor
      · intro h
        have hx : x = 0 := by omega
        have hxs : decodeBiguint xs = 0 := by omega
        rintro y (rfl | hy)
        · exact hx
        · exact (ih.mp hxs) y hy
      · intro h
        have hx := h x (Or.inl rfl)
        have hxs : decodeBiguint xs = 0 := ih.mpr (fun y hy => h y (Or.inr hy))
        omega

theorem connect_biguint_nil_left (rhs : List Nat) :
    connect_biguint [] rhs = rhs.map (fun x => x == 0) := by
  simp [connect_biguint]

theorem connect_biguint_nil_right (lhs : List Nat) :
    connect_biguint lhs [] = lhs.map (fun x => x == 0) := by
  simp [connect_biguint]

theorem connect_biguint_cons_cons (x y : Nat) (xs ys : List Nat) :
    connect_biguint (x :: xs) (y :: ys) =
      (x == y) :: connect_biguint xs ys := by
  simp [connect_biguint, Nat.succ_min_succ, List.cons_append]

theorem forall_mem_map_beq_zero (l : List Nat) :
    (∀ c ∈ l.map (fun x => x == 0), c = true) ↔ ∀ x ∈ l, x = 0 := by
  simp

/-- C6: confirmed.  connect_biguint equates the overlapping low limbs
pairwise and asserts every excess high limb of the longer operand to be
zero, and with every limb value below 2 ^ 32 its emitted constraints all
hold exactly when the decoded values of the two operands are equal. -/
theorem connect_biguint_iff : ∀ (lhs rhs : List Nat),
    (∀ x ∈ lhs, x < 2 ^ 32) → (∀ x ∈ rhs, x < 2 ^ 32) →
    ((∀ c ∈ connect_biguint lhs rhs, c = true) ↔
      decodeBiguint lhs = decodeBiguint rhs) := by
  intro lhs
  induction lhs with
  | nil =>
      intro rhs _ _
      rw [connect_biguint_nil_left, forall_mem_map_beq_zero,
        show decodeBiguint [] = 0 from rfl, eq_comm, decode_eq_zero_iff]
  | cons x xs ih =>
      intro rhs hl hr
      cases rhs with
      | nil =>
          rw [connect_biguint_nil_right, forall_mem_map_beq_zero,
            show decodeBiguint [] = 0 from rfl, decode_eq_zero_iff]
      | cons y ys =>
          have hx : x < 2 ^ 32 := hl x (List.mem_cons_self x xs)
          have hy : y < 2 ^ 32 := hr y (List.mem_cons_self y ys)
          have hxs : ∀ z ∈ xs, z < 2 ^ 32 :=
            fun z hz => hl z (List.mem_cons_of_mem x hz)
          have hys : ∀ z ∈ ys, z < 2 ^ 32 :=
            fun z hz => hr z (List.mem_cons_of_mem y hz)
          have hd : decodeBiguint (x :: xs) = decodeBiguint (y :: ys) ↔
              (x = y ∧ decodeBiguint xs = decodeBiguint ys) := by
            rw [show decodeBiguint (x :: xs) =
                x + 2 ^ 32 * decodeBiguint xs from rfl,
              show decodeBiguint (y :: ys) =
                y + 2 ^ 32 * decodeBiguint ys from rfl]
            constructor
            · intro h; omega
            · rintro ⟨rfl, h2⟩; rw [h2]
          rw [connect_biguint_cons_cons, hd, ← ih ys hxs hys]
          simp [List.forall_mem_cons]

/-- Witness for C6 at the operands [5] and [5, 0]: the limbs are in range
and the equivalence holds there. -/
theorem connect_biguint_iff_witness :
    (∀ x ∈ ([5] : List Nat), x < 2 ^ 32) ∧
    (∀ x ∈ ([5, 0] : List Nat), x < 2 ^ 32) ∧
    ((∀ c ∈ connect_biguint [5] [5, 0], c = true) ↔
      decodeBiguint [5] = decodeBiguint [5, 0]) :=
  ⟨by decide, by decide, connect_biguint_iff [5] [5, 0] (by decide) (by decide)⟩

namespace InsertionGate

/-- Value the source computes for insert_here in round r of
eval_unfiltered: the difference between the round index and the
insertion-index wire value K is tested natively, giving zero when r equals
K and one otherwise.  No insert_here wire is read. -/
def insert_here (r : Nat) (K : ℚ) : ℚ :=
  if (r : ℚ) - K = 0 then 0 else 1

/-- First equality-gadget constraint of round r as eval_unfiltered pushes
it: the difference times the equality-dummy wire value d, minus the
insert_here value. -/
def first_constraint (r : Nat) (K d : ℚ) : ℚ :=
  ((r : ℚ) - K) * d - insert_here r K

/-- Second equality-gadget constraint of round r as eval_unfiltered pushes
it: one minus the insert_here value, times the difference. -/
def second_constraint (r : Nat) (K d : ℚ) : ℚ :=
  (1 - insert_here r K) * ((r : ℚ) - K)

/-- Embedding of InsertionGate::eval_unfiltered: for each round r in
0..vec_size the two equality-gadget constraints are pushed.  The new_item
accumulator the round body then builds is dead code: it is never pushed
into the constraint list (and it reads a loop variable that is out of
scope there), so the returned list holds exactly these 2 * vec_size
entries.  K is the insertion-index wire value and d r the equality-dummy
wire value of round r. -/
def eval_unfiltered (vec_size : Nat) (K : ℚ) (d : Nat → ℚ) : List ℚ :=
  ((List.range vec_size).map
    (fun r => [first_constraint r K (d r), second_constraint r K (d r)])).flatten

/-- Embedding of InsertionGate::eval_unfiltered_recursively: the source
body is a todo macro, so every call aborts and no constraint targets are
ever produced; none is the only outcome. -/
def eval_unfiltered_recursively (vec_size : Nat) : Option (List ℚ) :=
  none

/-- Embedding of InsertionGate::degree, which returns the constant 1. -/
def degree : Nat := 1

end InsertionGate

/-- Wire addressing: a wire is a row (gate) index and a slot (input)
index, as in the source Wire struct. -/
structure Wire where
  gate : Nat
  input : Nat

/-- Target: an opaque handle to a circuit value; only wire targets occur
here. -/
inductive Target where
  | wire : Wire → Target

namespace InsertionGenerator

/-- Embedding of InsertionGenerator::dependencies, which returns an empty
vector of targets. -/
def dependencies : List Target := []

/-- Embedding of InsertionGenerator::run_once, which builds a singleton
witness assigning a single value to the constant-gate output wire of its
row; wireOutput stands for the external constant ConstantGate::WIRE_OUTPUT
and c for the value of the constant field the source reads even though the
generator struct has no such field. -/
def run_once (gateIndex wireOutput : Nat) (c : ℚ) : List (Target × ℚ) :=
  [(Target.wire ⟨gateIndex, wireOutput⟩, c)]

end InsertionGenerator

/-- C1: refuted on the code.  In eval_unfiltered the insert_here value is
computed natively from the wires as one exactly when r differs from K and
zero when r equals K, inverted from the claimed boolean, and no
insert_here wire is constrained to it: with vec_size 1 and K = 0 every
equality-dummy value makes the whole returned constraint list zero even
though insert_here is 0 at the matching round r = 0 = K, and with K = 1
the value at round 0 is hard-coded to 1 although r differs from K. -/
theorem insertion_insert_here_inverted (d : ℚ) :
    InsertionGate.insert_here 0 (0 : ℚ) = 0 ∧
    InsertionGate.insert_here 0 (1 : ℚ) = 1 ∧
    InsertionGate.eval_unfiltered 1 0 (fun _ => d) = [0, 0] := by
  refine ⟨by simp [InsertionGate.insert_here], ?_, ?_⟩
  · norm_num [InsertionGate.insert_here]
  · simp [InsertionGate.eval_unfiltered, InsertionGate.first_constraint,
      InsertionGate.second_constraint, InsertionGate.insert_here,
      show List.range 1 = [0] from rfl]

/-- C2: refuted on the code.  The construction of div_rem_biguint always
aborts: mul_biguint(div, b) yields 2 n + 1 limbs which are fed with the
n-limb rem into add_biguint, whose final carry store
combined_limbs[num_limbs] = carry is an out-of-bounds Vec store, so no
(div, rem) pair is ever returned, for any operand values. -/
theorem div_rem_biguint_aborts (a b : List Nat) :
    div_rem_biguint a b = none := by
  unfold div_rem_biguint
  cases h : mul_biguint (divRemGeneratorRun a b).1 b with
  | none => rfl
  | some divB => simp [add_biguint_eq_none]

/-- C3: refuted on the code.  add_biguint stores the final carry with
combined_limbs[num_limbs] = carry when combined_limbs holds num_limbs
elements, an out-of-bounds Vec store: on the one-limb operands A = [1]
and B = [2] the call aborts instead of returning the two-limb sum. -/
theorem add_biguint_aborts_on_one_limb :
    add_biguint [1] [2] = none := by decide

/-- C4 (amended): for equal-limb-count operands mul_biguint returns the
schoolbook product: the decoded value of the output equals the product of
the decoded inputs, and the output holds 2 n + 1 limbs (not 2 n as
claimed), the extra high limb holding the final ripple carry. -/
theorem mul_biguint_spec_amended (a b : List Nat) (hb : a.length = b.length) :
    ∃ l, mul_biguint a b = some l ∧ l.length = 2 * a.length + 1 ∧
      decodeBiguint l = decodeBiguint a * decodeBiguint b :=
  mul_biguint_spec a b hb

/-- Counterexample for C4 at the one-limb operands 2 and 3: the output is
the three-limb list [6, 0, 0], not a 2-limb one. -/
theorem mul_biguint_width_counterexample :
    mul_biguint [2] [3] = some [6, 0, 0] ∧
      ¬ ([6, 0, 0] : List Nat).length = 2 * ([2] : List Nat).length := by
  constructor
  · decide
  · decide

/-- Witness for C4 at the one-limb operands 2 and 3. -/
theorem mul_biguint_spec_amended_witness :
    ([2] : List Nat).length = ([3] : List Nat).length ∧
      ∃ l, mul_biguint [2] [3] = some l ∧
        l.length = 2 * ([2] : List Nat).length + 1 ∧
        decodeBiguint l = decodeBiguint [2] * decodeBiguint [3] :=
  ⟨rfl, mul_biguint_spec_amended [2] [3] rfl⟩

/-- C5: refuted on the code.  sub_biguint writes each round word with
result_limbs[i] = result into a Vec that stays empty, an out-of-bounds
store already at i = 0, so for every nonempty minuend it aborts instead
of returning the difference; moreover the final borrow is only noted in a
source comment and never asserted by a constraint. -/
theorem sub_biguint_aborts (x : Nat) (xs b : List Nat) :
    sub_biguint (x :: xs) b = none := by
  cases b with
  | nil => rfl
  | cons y ys => simp [sub_biguint, subLimbs, vecStore]

/-- C7: refuted on the code.  eval_unfiltered_recursively is a todo macro:
it aborts on every call and produces no in-circuit constraint targets at
all, for any vec_size. -/
theorem insertion_recursive_eval_aborts (vec_size : Nat) :
    InsertionGate.eval_unfiltered_recursively vec_size = none := rfl

/-- C8: refuted on the code.  InsertionGate::degree returns 1, yet the
first equality-gadget constraint pushed by eval_unfiltered is quadratic in
the wires: as a function of the insertion index K and the equality dummy
d it fails the affine exchange test on the four points K in 1..2 and d in
0..1, so its total degree is 2, not the returned 1. -/
theorem insertion_degree_underestimated :
    InsertionGate.degree = 1 ∧
      InsertionGate.first_constraint 0 1 0 + InsertionGate.first_constraint 0 2 1 ≠
        InsertionGate.first_constraint 0 1 1 + InsertionGate.first_constraint 0 2 0 := by
  refine ⟨rfl, ?_⟩
  norm_num [InsertionGate.first_constraint, InsertionGate.insert_here]

/-- C9: refuted on the code.  InsertionGenerator::dependencies returns the
empty list, declaring none of the insertion-index, element and list wires,
and run_once writes a single constant-gate output wire instead of the
intermediate and output wires of its row. -/
theorem insertion_generator_degenerate :
    InsertionGenerator.dependencies = [] ∧
      ∀ (g w : Nat) (c : ℚ), (InsertionGenerator.run_once g w c).length = 1 :=
  ⟨rfl, fun _ _ _ => rfl⟩

/-- C10 (amended): add_biguint is never total: the final carry store
combined_limbs[num_limbs] = carry addresses index num_limbs of a vector
holding exactly num_limbs elements, an out-of-bounds store, so for every
pair of operands the embedded function aborts (returns none) instead of
returning a result. -/
theorem add_biguint_never_returns (a b : List Nat) :
    add_biguint a b = none :=
  add_biguint_eq_none a b

/-- Counterexample for C10: on the one-limb operands 3 and 4 add_biguint
aborts with an out-of-bounds store instead of returning a sum. -/
theorem add_biguint_oob_counterexample :
    add_biguint [3] [4] = none := by decide

end Plonky2
